import Mathlib

set_option maxHeartbeats 1000000

/-!
A shallow embedding of the climate-dashboard data pipeline in
src/dashboard.py: dataset rows with the derived year field, the
year-range/country filter, the aggregation helpers (group means,
correlation matrix, min-max normalization, linear trend fit), and the
ridge-regression training and prediction path of `train_model` and the
predict-button handler.
-/

/-- One row of the loaded table.  `load_data` parses the `Date` column with
coercion (src/dashboard.py lines 222-225), so a row whose date string fails
to parse gets a missing (NaN) derived year; the derived fields are modelled
directly, with `none` standing for a failed parse.  Numeric cells are
`Option ℚ`, with `none` standing for a missing/NaN value. -/
structure Row where
  country : String
  year : Option Int
  monthName : Option String
  temperature : Option ℚ
  co2 : Option ℚ
  seaLevel : Option ℚ
  precipitation : Option ℚ
  humidity : Option ℚ
  windSpeed : Option ℚ
deriving DecidableEq

/-- The sidebar filter state: an inclusive year range and a country
allow-list (an empty list models the multiselect left empty, meaning no
country restriction). -/
structure FilterSpec where
  yearMin : Int
  yearMax : Int
  countries : List String
deriving DecidableEq

/-- Row constructor helper for concrete datasets. -/
def mkRow (c : String) (y : Option Int) (t e sl pr hu wi : Option ℚ) : Row :=
  ⟨c, y, none, t, e, sl, pr, hu, wi⟩

/-- The year-range test of line 320: with a missing (NaN) year both pandas
comparisons are false, so the row is dropped. -/
def yearOk (s : FilterSpec) (r : Row) : Bool :=
  match r.year with
  | some y => decide (s.yearMin ≤ y) && decide (y ≤ s.yearMax)
  | none => false

/-- The country test of line 322: membership in the selected-countries list. -/
def countryOk (s : FilterSpec) (r : Row) : Bool :=
  s.countries.contains r.country

/-- The combined row predicate of the two-stage filter. -/
def keepRow (s : FilterSpec) (r : Row) : Bool :=
  yearOk s r && (s.countries.isEmpty || countryOk s r)

/-- The filter of lines 320-322: the year-range restriction, then the
country restriction only when the country multiselect is nonempty. -/
def filtered_df (d : List Row) (s : FilterSpec) : List Row :=
  let byYear := d.filter (yearOk s)
  if s.countries.isEmpty then byYear else byYear.filter (countryOk s)

/-- The six numeric columns, in the order of `numeric_cols` (line 300). -/
def numCol : Fin 6 → Row → Option ℚ
  | 0 => Row.temperature
  | 1 => Row.co2
  | 2 => Row.seaLevel
  | 3 => Row.precipitation
  | 4 => Row.humidity
  | 5 => Row.windSpeed

/-- Mean of a list of rationals (sum divided by length). -/
def qmean (l : List ℚ) : ℚ := l.sum / l.length

/-- Column mean with pandas semantics: NaN values are skipped by the caller
and an empty collection reports NaN, modelled as `none`. -/
def meanOpt (l : List ℚ) : Option ℚ :=
  if l = [] then none else some (qmean l)

/-- Minimum of a list (only used on nonempty lists, as the source applies
`.min()` to series that exist on screen). -/
def listMin : List ℚ → ℚ
  | [] => 0
  | x :: xs => xs.foldl min x

/-- Maximum of a list. -/
def listMax : List ℚ → ℚ
  | [] => 0
  | x :: xs => xs.foldl max x

/-- The normalization used for the multi-variable trend chart (line 448) and
the box plots (line 673): `(v - min) / (max - min + 1e-9)`. -/
def minMaxNormalize (l : List ℚ) : List ℚ :=
  l.map (fun v => (v - listMin l) / (listMax l - listMin l + 1 / 1000000000))

/-- The distinct years present in a dataset, ascending, as produced by the
`groupby("Year")` aggregation (missing years are excluded group keys). -/
def yearsOf (d : List Row) : List Int :=
  List.insertionSort (fun a b => a ≤ b) (d.filterMap (fun r => r.year)).dedup

/-- The rows of a given year. -/
def rowsOfYear (d : List Row) (y : Int) : List Row :=
  d.filter (fun r => r.year = some y)

/-- The per-year mean points of one numeric column, the input of the yearly
trendline fit (lines 405 and 422): x = year, y = group mean (`none` models a
NaN group mean). -/
def trendPoints (d : List Row) (c : Fin 6) : List (ℚ × Option ℚ) :=
  (yearsOf d).map (fun (y : Int) =>
    ((y : ℚ), meanOpt ((rowsOfYear d y).filterMap (numCol c))))

/-- The degree-1 polynomial fit called at line 422.  `np.polyfit` raises a
TypeError on an empty input vector, modelled as `none`; a NaN in the y-vector
makes the solver fail to return a finite fit, also `none`.  On nondegenerate
input it is the unique least-squares line; a rank-deficient (constant-x)
nonempty input gets the minimum-norm least-squares solution. -/
def polyfit1 (pts : List (ℚ × Option ℚ)) : Option (ℚ × ℚ) :=
  if pts = [] then none
  else if pts.any (fun p => p.2.isNone) then none
  else
    let xs := pts.map Prod.fst
    let ys := pts.map (fun p => p.2.getD 0)
    let n : ℚ := pts.length
    let sx := xs.sum
    let sy := ys.sum
    let sxx := (xs.map (fun x => x ^ 2)).sum
    let sxy := ((xs.zip ys).map (fun p => p.1 * p.2)).sum
    let dd := n * sxx - sx ^ 2
    if dd = 0 then
      let c := sx / n
      let m := sy / n
      some (m * c / (c ^ 2 + 1), m / (c ^ 2 + 1))
    else
      let slope := (n * sxy - sx * sy) / dd
      some (slope, (sy - slope * sx) / n)

/-- The pairwise-complete paired observations of two numeric columns, as
pandas `.corr()` uses for each entry of the matrix. -/
def pairedCols (d : List Row) (i j : Fin 6) : List (ℚ × ℚ) :=
  d.filterMap (fun r =>
    match numCol i r, numCol j r with
    | some a, some b => some (a, b)
    | _, _ => none)

/-- Centered sum of squares of the first coordinates. -/
def sxxOf (l : List (ℚ × ℚ)) : ℚ :=
  (l.map (fun p => (p.1 - qmean (l.map Prod.fst)) ^ 2)).sum

/-- Centered sum of squares of the second coordinates. -/
def syyOf (l : List (ℚ × ℚ)) : ℚ :=
  (l.map (fun p => (p.2 - qmean (l.map Prod.snd)) ^ 2)).sum

/-- Centered sum of products of the paired coordinates. -/
def sxyOf (l : List (ℚ × ℚ)) : ℚ :=
  (l.map (fun p => (p.1 - qmean (l.map Prod.fst)) * (p.2 - qmean (l.map Prod.snd)))).sum

/-- Pearson correlation of the paired observations, as in pandas `.corr()`
(line 493): undefined — NaN, here `none` — when either column is degenerate
(zero variance, which covers the empty and the single-observation cases);
otherwise the centered product sum over the geometric mean of the centered
square sums. -/
noncomputable def pearsonOpt (l : List (ℚ × ℚ)) : Option ℝ :=
  if sxxOf l = 0 ∨ syyOf l = 0 then none
  else some ((sxyOf l : ℝ) / (Real.sqrt (sxxOf l : ℝ) * Real.sqrt (syyOf l : ℝ)))

/-- The correlation matrix of line 493 over the six numeric columns. -/
noncomputable def corr_matrix (d : List Row) (i j : Fin 6) : Option ℝ :=
  pearsonOpt (pairedCols d i j)

/-- True when all five model features are present (line 732 drops exactly the
rows with a missing feature; the target is not consulted there). -/
def featuresPresent (r : Row) : Bool :=
  r.co2.isSome && r.seaLevel.isSome && r.precipitation.isSome &&
    r.humidity.isSome && r.windSpeed.isSome

/-- `X = data[features].dropna()`: keep exactly the rows with all five
features present. -/
def dropnaFeatures (d : List Row) : List Row :=
  d.filter featuresPresent

/-- Feature vector of a retained row, in the order of the `features` list of
`train_model`; the `getD` defaults are unreachable on retained rows. -/
def featVec (r : Row) : Fin 5 → ℚ
  | 0 => r.co2.getD 0
  | 1 => r.seaLevel.getD 0
  | 2 => r.precipitation.getD 0
  | 3 => r.humidity.getD 0
  | 4 => r.windSpeed.getD 0

/-- The feature matrix X of `train_model`. -/
def featureMatrix (d : List Row) : List (Fin 5 → ℚ) :=
  (dropnaFeatures d).map featVec

/-- `y = data.loc[X.index, target]`: the target value of every retained row,
taken as stored — a missing target is carried along, not dropped. -/
def targetsOf (d : List Row) : List (Option ℚ) :=
  (dropnaFeatures d).map (fun r => r.temperature)

/-- The targets as reals for the library fit; a present value is read off
(the `getD` default is only reachable when a retained target is missing, in
which case the library fit would reject the NaN input). -/
noncomputable def targetsReal (d : List Row) : List ℝ :=
  (targetsOf d).map (fun o => ((o.getD 0 : ℚ) : ℝ))

/-- The statistics StandardScaler stores per feature. -/
structure Scaler where
  mean : Fin 5 → ℚ
  var : Fin 5 → ℚ

/-- `scaler.fit` over a feature matrix: per-column mean and population
variance (ddof = 0). -/
def fitScaler (X : List (Fin 5 → ℚ)) : Scaler :=
  ⟨fun i => qmean (X.map (fun x => x i)),
   fun i => qmean (X.map (fun x => (x i - qmean (X.map (fun x' => x' i))) ^ 2))⟩

/-- The per-feature scale: the square root of the stored variance, with a
zero variance replaced by 1 (the library's handling of constant columns). -/
noncomputable def scaleOf (v : ℚ) : ℝ :=
  if v = 0 then 1 else Real.sqrt (v : ℝ)

/-- `scaler.transform` on one feature vector: `(x - mean) / scale` with the
stored statistics. -/
noncomputable def transformRow (s : Scaler) (x : Fin 5 → ℚ) : Fin 5 → ℝ :=
  fun i => ((x i : ℝ) - (s.mean i : ℝ)) / scaleOf (s.var i)

/-- The number of held-out rows: `test_size=0.2` makes the library hold out
the ceiling of a fifth of the rows. -/
def nTest (n : ℕ) : ℕ := (n + 4) / 5

/-- Modelled from the spec: the "fixed, reproducible partition" of the
train/evaluation split.  The library draws a permutation from a generator
seeded by `random_state`; that permutation is internal to the library, so a
definite seed-dependent choice of held-out indices stands in for it. -/
def testIdxOfSeed (seed n : ℕ) : Finset ℕ :=
  (Finset.range (nTest n)).image (fun j => (seed + j) % n)

/-- `train_test_split` index choice: with `random_state = some s` the
partition depends only on the seed and the row count; with `none` it
consumes external entropy. -/
def train_test_split (randomState : Option ℕ) (entropy n : ℕ) : Finset ℕ :=
  testIdxOfSeed (randomState.getD entropy) n

/-- Keep the elements whose position satisfies `keep`, positions counted
from `i`. -/
def partFrom {α : Type} (keep : ℕ → Bool) : ℕ → List α → List α
  | _, [] => []
  | i, x :: xs =>
    if keep i then x :: partFrom keep (i + 1) xs else partFrom keep (i + 1) xs

/-- The training part of a list under a held-out index set. -/
def trainPart {α : Type} (T : Finset ℕ) (l : List α) : List α :=
  partFrom (fun i => decide (i ∉ T)) 0 l

/-- The held-out (evaluation) part of a list under a held-out index set. -/
def testPart {α : Type} (T : Finset ℕ) (l : List α) : List α :=
  partFrom (fun i => decide (i ∈ T)) 0 l

/-- The data `train_model` presents to the library fit. -/
structure Prepared where
  scaler : Scaler
  xTrain : List (Fin 5 → ℝ)
  xTest : List (Fin 5 → ℝ)
  yTrain : List ℝ
  yTest : List ℝ

/-- The `train_model` pipeline up to the library fit, for a given held-out
index set `T`: drop the rows with a missing feature, fit the scaler on the
full retained matrix, scale every row with those statistics, then split.
(The source scales before splitting; scaling is elementwise with the global
statistics, so splitting the scaled rows by index is the same operation.) -/
noncomputable def partsFor (data : List Row) (T : Finset ℕ) : Prepared :=
  let X := featureMatrix data
  let s := fitScaler X
  let XS := X.map (transformRow s)
  let y := targetsReal data
  ⟨s, trainPart T XS, testPart T XS, trainPart T y, testPart T y⟩

/-- The `train_model` pipeline with the source's split call:
`train_test_split(..., test_size=0.2, random_state=42)`. -/
noncomputable def prepare (data : List Row) (entropy : ℕ) : Prepared :=
  partsFor data (train_test_split (some 42) entropy (featureMatrix data).length)

/-- Dot product of a weight vector with a feature vector. -/
noncomputable def dot (w x : Fin 5 → ℝ) : ℝ := ∑ i, w i * x i

/-- The ridge objective the library fit minimizes:
squared training error plus `alpha` times the squared weight norm. -/
noncomputable def ridgeLoss (a : ℝ) (X : List (Fin 5 → ℝ)) (y : List ℝ)
    (w : Fin 5 → ℝ) (b : ℝ) : ℝ :=
  ((X.zip y).map (fun p => (p.2 - (dot w p.1 + b)) ^ 2)).sum + a * ∑ i, w i ^ 2

/-- `Ridge(alpha).fit(X, y)` returns a minimizer of the ridge objective; the
fit is characterized by that minimality. -/
def IsRidgeFit (a : ℝ) (X : List (Fin 5 → ℝ)) (y : List ℝ)
    (w : Fin 5 → ℝ) (b : ℝ) : Prop :=
  ∀ w' b', ridgeLoss a X y w b ≤ ridgeLoss a X y w' b'

/-- `model.predict` on a list of scaled feature vectors. -/
noncomputable def predsOn (X : List (Fin 5 → ℝ)) (w : Fin 5 → ℝ) (b : ℝ) : List ℝ :=
  X.map (fun x => dot w x + b)

/-- Mean of a list of reals. -/
noncomputable def rmean (l : List ℝ) : ℝ := l.sum / l.length

/-- The metrics dictionary of `train_model` (lines 745-749). -/
structure Metrics where
  mae : ℝ
  rmse : ℝ
  r2 : ℝ

/-- The metrics computation of `train_model`: MAE and RMSE are computed from
the held-out targets and predictions; the reported coefficient of
determination is the literal constant `0.7134` of line 748. -/
noncomputable def metricsOf (ytest ypred : List ℝ) : Metrics :=
  ⟨rmean ((ytest.zip ypred).map (fun p => |p.1 - p.2|)),
   Real.sqrt (rmean ((ytest.zip ypred).map (fun p => (p.1 - p.2) ^ 2))),
   0.7134⟩

/-- Modelled from the spec: the "coefficient of determination over the
evaluation partition", `1 - SSres / SStot`; exact predictions (`SSres = 0`)
score 1.  The source imports a library scorer but never calls it, so this
definition follows the spec's words. -/
noncomputable def coeffOfDetermination (ytrue ypred : List ℝ) : ℝ :=
  1 - ((ytrue.zip ypred).map (fun p => (p.1 - p.2) ^ 2)).sum /
    (ytrue.map (fun v => (v - rmean ytrue) ^ 2)).sum

/-- The predict-button handler (lines 824-826): scale the raw feature vector
with the stored scaler, then apply the linear model. -/
noncomputable def predictTemp (s : Scaler) (w : Fin 5 → ℝ) (b : ℝ)
    (x : Fin 5 → ℚ) : ℝ :=
  dot w (transformRow s x) + b

/-- A concrete five-row dataset: every feature present, CO2 column
0, 1, 2, 3, 10 (full mean 16/5), constant target 7. -/
def dM : List Row :=
  [mkRow "A" (some 2000) (some 7) (some 0) (some 1) (some 2) (some 3) (some 4),
   mkRow "B" (some 2001) (some 7) (some 1) (some 2) (some 3) (some 4) (some 5),
   mkRow "C" (some 2002) (some 7) (some 2) (some 3) (some 4) (some 5) (some 6),
   mkRow "D" (some 2003) (some 7) (some 3) (some 4) (some 5) (some 6) (some 7),
   mkRow "E" (some 2004) (some 7) (some 10) (some 5) (some 6) (some 7) (some 8)]

/-- A row with every feature present but a missing target. -/
def rowMissingTarget : Row :=
  mkRow "X" (some 2000) none (some 1) (some 1) (some 1) (some 1) (some 1)

/-- A two-row dataset whose first row has a missing target. -/
def dC5 : List Row :=
  [rowMissingTarget,
   mkRow "Y" (some 2000) (some 5) (some 2) (some 2) (some 2) (some 2) (some 2)]

/-- A row whose date parsed (year 2000). -/
def rowParsed : Row :=
  mkRow "FR" (some 2000) (some 1) (some 1) (some 1) (some 1) (some 1) (some 1)

/-- A row whose date failed to parse (missing derived year). -/
def rowUnparsed : Row :=
  mkRow "FR" none (some 1) (some 1) (some 1) (some 1) (some 1) (some 1)

/-- A dataset with one parsed-date row and one unparseable-date row. -/
def dC3 : List Row := [rowParsed, rowUnparsed]

/-- The full observed year range of `dC3` with an empty allow-list. -/
def sFull : FilterSpec := ⟨2000, 2000, []⟩

/-- A one-row dataset for the empty-filter-result scenario. -/
def dC4 : List Row := [rowParsed]

/-- A valid year range matching no row of `dC4`. -/
def sNoMatch : FilterSpec := ⟨2005, 2010, []⟩

/-- A two-row dataset with a varying temperature column and a constant wind
column. -/
def dW7 : List Row :=
  [mkRow "A" (some 2000) (some 0) (some 1) (some 1) (some 1) (some 1) (some 3),
   mkRow "B" (some 2001) (some 2) (some 3) (some 1) (some 1) (some 1) (some 3)]

/-! ## Filter engine lemmas -/

/-- The two-stage filter is one pass with the combined predicate. -/
theorem filtered_df_eq_filter (d : List Row) (s : FilterSpec) :
    filtered_df d s = d.filter (keepRow s) := by
  unfold filtered_df keepRow
  cases h : s.countries.isEmpty with
  | true => simp [h]
  | false =>
    simp only [h, Bool.false_eq_true, if_false, Bool.false_or, List.filter_filter]
    congr 1
    funext r
    exact Bool.and_comm _ _

/-- The combined predicate, spelled out. -/
theorem keepRow_iff (s : FilterSpec) (r : Row) :
    keepRow s r = true ↔
      ((∃ y, r.year = some y ∧ s.yearMin ≤ y ∧ y ≤ s.yearMax) ∧
        (s.countries = [] ∨ r.country ∈ s.countries)) := by
  unfold keepRow yearOk countryOk
  cases hy : r.year with
  | none => simp
  | some y =>
    constructor
    · intro h
      simp only [Bool.and_eq_true, Bool.or_eq_true, decide_eq_true_iff,
        List.isEmpty_iff] at h
      refine ⟨⟨y, rfl, h.1.1, h.1.2⟩, ?_⟩
      rcases h.2 with h2 | h2
      · exact Or.inl h2
      · exact Or.inr (List.elem_iff.mp h2)
    · intro h
      obtain ⟨⟨y', hy', h1, h2⟩, hc⟩ := h
      cases hy'
      simp only [Bool.and_eq_true, Bool.or_eq_true, decide_eq_true_iff,
        List.isEmpty_iff]
      refine ⟨⟨h1, h2⟩, ?_⟩
      rcases hc with hc | hc
      · exact Or.inl hc
      · exact Or.inr (List.elem_iff.mpr hc)

/-- A row in the filter output has a present (parsed) derived year. -/
theorem year_isSome_of_mem_filtered {d : List Row} {s : FilterSpec} {r : Row}
    (hr : r ∈ filtered_df d s) : r.year ≠ none := by
  rw [filtered_df_eq_filter] at hr
  obtain ⟨-, hk⟩ := List.mem_filter.mp hr
  obtain ⟨⟨y, hy, -, -⟩, -⟩ := (keepRow_iff s r).mp hk
  simp [hy]

/-- C3 counterexample: a valid FilterSpec with the full observed year range
and an empty country allow-list does not return the unfiltered dataset when
one row's date failed to parse, so the claim as stated fails. -/
theorem c3_full_range_counterexample :
    sFull.countries = [] ∧ sFull.yearMin ≤ sFull.yearMax ∧
      filtered_df dC3 sFull ≠ dC3 := by
  decide

/-- C3 (amended): `filter(D, s)` keeps a row iff its derived year is present
and `year_min ≤ year ≤ year_max` and the allow-list is empty or contains the
row's country; the output is a sublist of the input (input order preserved);
and with an empty allow-list and a year range covering every row's parsed
year the filter returns the unfiltered dataset — which happens exactly when
every row's date parses. -/
theorem c3_filter_semantics :
    (∀ d s, filtered_df d s = d.filter (keepRow s)) ∧
    (∀ s r, keepRow s r = true ↔
      ((∃ y, r.year = some y ∧ s.yearMin ≤ y ∧ y ≤ s.yearMax) ∧
        (s.countries = [] ∨ r.country ∈ s.countries))) ∧
    (∀ d s, (filtered_df d s).Sublist d) ∧
    (∀ d s, s.countries = [] →
      (∀ r ∈ d, ∃ y, r.year = some y ∧ s.yearMin ≤ y ∧ y ≤ s.yearMax) →
      filtered_df d s = d) := by
  refine ⟨filtered_df_eq_filter, keepRow_iff, ?_, ?_⟩
  · intro d s
    rw [filtered_df_eq_filter]
    exact List.filter_sublist d
  · intro d s hc hall
    rw [filtered_df_eq_filter]
    apply List.filter_eq_self.mpr
    intro r hr
    exact (keepRow_iff s r).mpr ⟨hall r hr, Or.inl hc⟩

/-- C3 witness: the amended theorem applied at a concrete dataset whose one
row parses and lies in the year range. -/
theorem c3_witness : filtered_df [rowParsed] sFull = [rowParsed] := by
  refine c3_filter_semantics.2.2.2 [rowParsed] sFull rfl ?_
  intro r hr
  rw [List.mem_singleton] at hr
  subst hr
  exact ⟨2000, rfl, by decide, by decide⟩

/-- C6: the filter output is a sublist of the input (every output row occurs
in the input, in input order), every output row satisfies the filter
predicate, and filtering is idempotent. -/
theorem c6_filter_subset_idempotent :
    (∀ d s, (filtered_df d s).Sublist d) ∧
    (∀ d s, (filtered_df d s).all (keepRow s) = true) ∧
    (∀ d s, filtered_df (filtered_df d s) s = filtered_df d s) := by
  refine ⟨?_, ?_, ?_⟩
  · intro d s
    rw [filtered_df_eq_filter]
    exact List.filter_sublist d
  · intro d s
    rw [filtered_df_eq_filter]
    exact List.all_eq_true.mpr (fun r hr => (List.mem_filter.mp hr).2)
  · intro d s
    rw [filtered_df_eq_filter, filtered_df_eq_filter d, List.filter_filter]
    simp [Bool.and_self]

/-- C10: a row whose date failed to parse (missing derived year) is excluded
by every filter, because a missing year satisfies neither year bound; hence a
dataset containing such a row is never returned whole — even by the
full-year-range, empty-allowlist filter. -/
theorem c10_unparsed_dates_excluded :
    (∀ d s r, r ∈ filtered_df d s → r.year ≠ none) ∧
    (∀ d s, (∃ r ∈ d, r.year = none) → filtered_df d s ≠ d) := by
  constructor
  · intro d s r hr
    exact year_isSome_of_mem_filtered hr
  · intro d s hex heq
    obtain ⟨r, hrd, hry⟩ := hex
    rw [← heq] at hrd
    exact year_isSome_of_mem_filtered hrd hry

/-- C10 witness: the theorem applied to a concrete dataset with one parsed
and one unparseable date. -/
theorem c10_witness :
    rowParsed.year ≠ none ∧ filtered_df dC3 sFull ≠ dC3 := by
  constructor
  · exact c10_unparsed_dates_excluded.1 dC3 sFull rowParsed (by decide)
  · exact c10_unparsed_dates_excluded.2 dC3 sFull ⟨rowUnparsed, by decide, rfl⟩

/-- C4: a valid filter combination yielding zero rows does not degrade to an
explicit "no data" state: the key-metric means are NaN (`none`), the yearly
aggregation is empty, and the trendline fit `np.polyfit` receives an empty
vector and raises (modelled by `polyfit1 = none`) instead of reporting "no
data". -/
theorem c4_empty_result_raises :
    sNoMatch.yearMin ≤ sNoMatch.yearMax ∧
    filtered_df dC4 sNoMatch = [] ∧
    meanOpt ((filtered_df dC4 sNoMatch).filterMap (numCol 0)) = none ∧
    trendPoints (filtered_df dC4 sNoMatch) 0 = [] ∧
    polyfit1 (trendPoints (filtered_df dC4 sNoMatch) 0) = none := by
  decide

/-! ## Min-max normalization lemmas -/

/-- Folding min never exceeds the initial value. -/
theorem foldl_min_le (x : ℚ) (xs : List ℚ) : xs.foldl min x ≤ x := by
  induction xs generalizing x with
  | nil => exact le_refl x
  | cons y ys ih => exact le_trans (ih (min x y)) (min_le_left x y)

/-- Folding min never exceeds a member of the tail. -/
theorem foldl_min_le_mem (x v : ℚ) (xs : List ℚ) (hv : v ∈ xs) :
    xs.foldl min x ≤ v := by
  induction xs generalizing x with
  | nil => cases hv
  | cons y ys ih =>
    rcases List.mem_cons.mp hv with h | h
    · subst h
      exact le_trans (foldl_min_le (min x v) ys) (min_le_right x v)
    · exact ih (min x y) h

/-- Folding max is at least the initial value. -/
theorem le_foldl_max (x : ℚ) (xs : List ℚ) : x ≤ xs.foldl max x := by
  induction xs generalizing x with
  | nil => exact le_refl x
  | cons y ys ih => exact le_trans (le_max_left x y) (ih (max x y))

/-- Folding max is at least any member of the tail. -/
theorem mem_le_foldl_max (x v : ℚ) (xs : List ℚ) (hv : v ∈ xs) :
    v ≤ xs.foldl max x := by
  induction xs generalizing x with
  | nil => cases hv
  | cons y ys ih =>
    rcases List.mem_cons.mp hv with h | h
    · subst h
      exact le_trans (le_max_right x v) (le_foldl_max (max x v) ys)
    · exact ih (max x y) h

/-- The list minimum bounds every member from below. -/
theorem listMin_le_of_mem {l : List ℚ} {v : ℚ} (hv : v ∈ l) : listMin l ≤ v := by
  cases l with
  | nil => cases hv
  | cons x xs =>
    rcases List.mem_cons.mp hv with h | h
    · subst h
      exact foldl_min_le v xs
    · exact foldl_min_le_mem x v xs h

/-- The list maximum bounds every member from above. -/
theorem le_listMax_of_mem {l : List ℚ} {v : ℚ} (hv : v ∈ l) : v ≤ listMax l := by
  cases l with
  | nil => cases hv
  | cons x xs =>
    rcases List.mem_cons.mp hv with h | h
    · subst h
      exact le_foldl_max v xs
    · exact mem_le_foldl_max x v xs h

/-- C8: `minMaxNormalize` computes `(v - min) / (max - min + 1e-9)`; for a
nonempty series with nonzero range every output value lies in [0, 1], and a
constant (zero-range) series maps every value to 0 instead of dividing by
zero. -/
theorem c8_minmax_normalize (l : List ℚ) (hne : l ≠ []) :
    (minMaxNormalize l =
      l.map (fun v => (v - listMin l) / (listMax l - listMin l + 1 / 1000000000))) ∧
    (listMax l - listMin l ≠ 0 → ∀ w ∈ minMaxNormalize l, 0 ≤ w ∧ w ≤ 1) ∧
    (listMax l - listMin l = 0 → ∀ w ∈ minMaxNormalize l, w = 0) := by
  have hrange : 0 ≤ listMax l - listMin l := by
    cases l with
    | nil => exact absurd rfl hne
    | cons x xs =>
      have h1 := listMin_le_of_mem (List.mem_cons_self x xs)
      have h2 := le_listMax_of_mem (List.mem_cons_self x xs)
      linarith
  refine ⟨rfl, ?_, ?_⟩
  · intro h0 w hw
    obtain ⟨v, hv, rfl⟩ := List.mem_map.mp hw
    have hpos : 0 < listMax l - listMin l := lt_of_le_of_ne hrange (Ne.symm h0)
    have hvmin := listMin_le_of_mem hv
    have hvmax := le_listMax_of_mem hv
    constructor
    · apply div_nonneg <;> linarith
    · rw [div_le_one (by linarith)]
      linarith
  · intro h0 w hw
    obtain ⟨v, hv, rfl⟩ := List.mem_map.mp hw
    have hvmin := listMin_le_of_mem hv
    have hvmax := le_listMax_of_mem hv
    have hvm : v = listMin l := by linarith
    rw [hvm, sub_self, zero_div]

/-- C8 witness: the theorem applied to the concrete series [0, 1, 3]. -/
theorem c8_witness :
    0 ≤ ((1 : ℚ) - listMin [0, 1, 3]) /
        (listMax [0, 1, 3] - listMin [0, 1, 3] + 1 / 1000000000) ∧
    ((1 : ℚ) - listMin [0, 1, 3]) /
        (listMax [0, 1, 3] - listMin [0, 1, 3] + 1 / 1000000000) ≤ 1 :=
  (c8_minmax_normalize [0, 1, 3] (by simp)).2.1
    (by norm_num [listMax, listMin, List.foldl, max_def, min_def])
    _ (List.mem_map.mpr ⟨1, by simp, rfl⟩)

/-! ## Correlation matrix lemmas -/

/-- Swapping the column order swaps every retained pair. -/
theorem pairedCols_swap (d : List Row) (i j : Fin 6) :
    pairedCols d j i = (pairedCols d i j).map Prod.swap := by
  induction d with
  | nil => rfl
  | cons r t ih =>
    unfold pairedCols at ih ⊢
    cases hi : numCol i r <;> cases hj : numCol j r <;>
      simp [List.filterMap_cons, hi, hj, ih]

/-- The centered square sum of the first coordinates after a swap. -/
theorem sxxOf_swap (l : List (ℚ × ℚ)) : sxxOf (l.map Prod.swap) = syyOf l := by
  simp [sxxOf, syyOf, List.map_map, Function.comp_def]

/-- The centered square sum of the second coordinates after a swap. -/
theorem syyOf_swap (l : List (ℚ × ℚ)) : syyOf (l.map Prod.swap) = sxxOf l := by
  simp [sxxOf, syyOf, List.map_map, Function.comp_def]

/-- The centered product sum is swap-invariant. -/
theorem sxyOf_swap (l : List (ℚ × ℚ)) : sxyOf (l.map Prod.swap) = sxyOf l := by
  simp [sxyOf, List.map_map, Function.comp_def, mul_comm]

/-- Pearson correlation is swap-invariant. -/
theorem pearsonOpt_swap (l : List (ℚ × ℚ)) :
    pearsonOpt (l.map Prod.swap) = pearsonOpt l := by
  unfold pearsonOpt
  rw [sxxOf_swap, syyOf_swap, sxyOf_swap]
  by_cases h1 : sxxOf l = 0 <;> by_cases h2 : syyOf l = 0 <;>
    simp [h1, h2, mul_comm]

/-- On the diagonal the paired observations are equal coordinatewise. -/
theorem pairedCols_diag (d : List Row) (i : Fin 6) :
    ∀ p ∈ pairedCols d i i, p.1 = p.2 := by
  intro p hp
  obtain ⟨r, hr, hf⟩ := List.mem_filterMap.mp hp
  cases h : numCol i r with
  | none => rw [h] at hf; simp at hf
  | some a =>
    rw [h] at hf
    simp only [Option.some.injEq] at hf
    rw [← hf]

/-- Seconds equal firsts as mapped lists, for diagonal pair lists. -/
theorem map_fst_eq_map_snd {l : List (ℚ × ℚ)} (h : ∀ p ∈ l, p.1 = p.2) :
    l.map Prod.snd = l.map Prod.fst :=
  List.map_eq_map_iff.mpr (fun p hp => (h p hp).symm)

/-- On a diagonal pair list the product sum is the square sum. -/
theorem sxyOf_diag {l : List (ℚ × ℚ)} (h : ∀ p ∈ l, p.1 = p.2) :
    sxyOf l = sxxOf l := by
  unfold sxyOf sxxOf
  rw [map_fst_eq_map_snd h]
  refine congrArg List.sum (List.map_eq_map_iff.mpr ?_)
  intro p hp
  rw [← h p hp, pow_two]

/-- On a diagonal pair list the second square sum is the first. -/
theorem syyOf_diag {l : List (ℚ × ℚ)} (h : ∀ p ∈ l, p.1 = p.2) :
    syyOf l = sxxOf l := by
  unfold syyOf sxxOf
  rw [map_fst_eq_map_snd h]
  refine congrArg List.sum (List.map_eq_map_iff.mpr ?_)
  intro p hp
  rw [← h p hp]

/-- A centered square sum is nonnegative. -/
theorem sxxOf_nonneg (l : List (ℚ × ℚ)) : 0 ≤ sxxOf l := by
  apply List.sum_nonneg
  intro x hx
  obtain ⟨p, hp, rfl⟩ := List.mem_map.mp hx
  exact sq_nonneg _

/-- C7: `corr_matrix` is symmetric in its two column indices; the diagonal
entry of a column with nonzero variance in the given rows equals 1; and any
entry involving a zero-variance column is undefined (`none`, the library's
NaN) rather than an error. -/
theorem c7_corr_matrix_props :
    (∀ d i j, corr_matrix d i j = corr_matrix d j i) ∧
    (∀ d i, sxxOf (pairedCols d i i) ≠ 0 → corr_matrix d i i = some 1) ∧
    (∀ d i j, sxxOf (pairedCols d i j) = 0 ∨ syyOf (pairedCols d i j) = 0 →
      corr_matrix d i j = none) := by
  refine ⟨?_, ?_, ?_⟩
  · intro d i j
    unfold corr_matrix
    rw [pairedCols_swap d i j, pearsonOpt_swap]
  · intro d i h
    unfold corr_matrix pearsonOpt
    have hd := pairedCols_diag d i
    rw [sxyOf_diag hd, syyOf_diag hd, if_neg (by push_neg; exact ⟨h, h⟩)]
    have hq : 0 < sxxOf (pairedCols d i i) :=
      lt_of_le_of_ne (sxxOf_nonneg _) (Ne.symm h)
    have hpos : (0 : ℝ) < ((sxxOf (pairedCols d i i) : ℚ) : ℝ) := by
      exact_mod_cast hq
    rw [Real.mul_self_sqrt hpos.le]
    rw [div_self (ne_of_gt hpos)]
  · intro d i j h
    unfold corr_matrix pearsonOpt
    exact if_pos h

/-- C7 witness: symmetry, the unit diagonal at a nonzero-variance column,
and the undefined entry at a constant column, on concrete data. -/
theorem c7_witness :
    corr_matrix dW7 0 1 = corr_matrix dW7 1 0 ∧
    corr_matrix dW7 0 0 = some 1 ∧
    corr_matrix dW7 5 5 = none := by
  have hp0 : pairedCols dW7 0 0 = [(0, 0), (2, 2)] := rfl
  have hp5 : pairedCols dW7 5 5 = [(3, 3), (3, 3)] := rfl
  refine ⟨c7_corr_matrix_props.1 dW7 0 1,
    c7_corr_matrix_props.2.1 dW7 0 ?_,
    c7_corr_matrix_props.2.2 dW7 5 5 (Or.inl ?_)⟩
  · rw [hp0]
    norm_num [sxxOf, qmean]
  · rw [hp5]
    norm_num [sxxOf, qmean]

/-! ## Split and ridge-fit lemmas -/

/-- Every element kept by a positional split comes from the input list. -/
theorem partFrom_subset {α : Type} (keep : ℕ → Bool) :
    ∀ (i : ℕ) (l : List α), ∀ x ∈ partFrom keep i l, x ∈ l := by
  intro i l
  induction l generalizing i with
  | nil => intro x hx; cases hx
  | cons a t ih =>
    intro x hx
    unfold partFrom at hx
    by_cases hk : keep i = true
    · rw [if_pos hk] at hx
      rcases List.mem_cons.mp hx with h | h
      · exact h ▸ List.mem_cons_self a t
      · exact List.mem_cons_of_mem a (ih (i + 1) x h)
    · rw [if_neg hk] at hx
      exact List.mem_cons_of_mem a (ih (i + 1) x hx)

/-- A positional split keeps the same number of elements from two lists of
equal length. -/
theorem partFrom_length_congr {α β : Type} (keep : ℕ → Bool) :
    ∀ (i : ℕ) (l₁ : List α) (l₂ : List β), l₁.length = l₂.length →
      (partFrom keep i l₁).length = (partFrom keep i l₂).length := by
  intro i l₁
  induction l₁ generalizing i with
  | nil =>
    intro l₂ h
    cases l₂ with
    | nil => rfl
    | cons b t => simp at h
  | cons a t ih =>
    intro l₂ h
    cases l₂ with
    | nil => simp at h
    | cons b t₂ =>
      simp only [List.length_cons] at h
      have h' : t.length = t₂.length := by omega
      unfold partFrom
      by_cases hk : keep i = true
      · rw [if_pos hk, if_pos hk]
        simp [ih (i + 1) t₂ h']
      · rw [if_neg hk, if_neg hk]
        exact ih (i + 1) t₂ h'

/-- The retained targets of the concrete dataset are the constant 7. -/
theorem targetsReal_dM : targetsReal dM = [7, 7, 7, 7, 7] := by
  have he : targetsReal dM =
      [((7 : ℚ) : ℝ), ((7 : ℚ) : ℝ), ((7 : ℚ) : ℝ), ((7 : ℚ) : ℝ), ((7 : ℚ) : ℝ)] := rfl
  rw [he]
  norm_num

/-- A list of nonnegative reals with zero sum is all zeros. -/
theorem list_sum_zero_of_nonneg {l : List ℝ} (h0 : ∀ x ∈ l, 0 ≤ x)
    (hs : l.sum = 0) : ∀ x ∈ l, x = 0 := by
  induction l with
  | nil => intro x hx; cases hx
  | cons a t ih =>
    have ha : 0 ≤ a := h0 a (List.mem_cons_self a t)
    have ht : 0 ≤ t.sum :=
      List.sum_nonneg (fun x hx => h0 x (List.mem_cons_of_mem a hx))
    rw [List.sum_cons] at hs
    have ha0 : a = 0 := by linarith
    have hts : t.sum = 0 := by linarith
    intro x hx
    rcases List.mem_cons.mp hx with h | h
    · exact h ▸ ha0
    · exact ih (fun y hy => h0 y (List.mem_cons_of_mem a hy)) hts x h

/-- The ridge objective vanishes at zero weights and bias equal to a
constant target. -/
theorem ridgeLoss_zero_of_const {X : List (Fin 5 → ℝ)} {y : List ℝ} {c : ℝ}
    (hy : ∀ v ∈ y, v = c) :
    ridgeLoss 1 X y (fun _ => 0) c = 0 := by
  unfold ridgeLoss
  have h1 : ((X.zip y).map
      (fun p => (p.2 - (dot (fun _ => 0) p.1 + c)) ^ 2)).sum = 0 := by
    apply List.sum_eq_zero
    intro x hx
    obtain ⟨⟨p1, p2⟩, hp, rfl⟩ := List.mem_map.mp hx
    have hp2 : p2 = c := hy p2 (List.of_mem_zip hp).2
    simp [dot, hp2]
  rw [h1]
  simp [dot]

/-- The ridge objective is nonnegative. -/
theorem ridgeLoss_nonneg (X : List (Fin 5 → ℝ)) (y : List ℝ)
    (w : Fin 5 → ℝ) (b : ℝ) : 0 ≤ ridgeLoss 1 X y w b := by
  unfold ridgeLoss
  have h1 : 0 ≤ ((X.zip y).map (fun p => (p.2 - (dot w p.1 + b)) ^ 2)).sum := by
    apply List.sum_nonneg
    intro x hx
    obtain ⟨p, hp, rfl⟩ := List.mem_map.mp hx
    exact sq_nonneg _
  have h2 : (0 : ℝ) ≤ ∑ i, w i ^ 2 := Finset.sum_nonneg (fun i _ => sq_nonneg _)
  linarith

/-- A ridge minimizer on a nonempty constant-target training set has zero
weights and bias equal to the constant. -/
theorem ridge_fit_const {X : List (Fin 5 → ℝ)} {y : List ℝ} {c : ℝ}
    {w : Fin 5 → ℝ} {b : ℝ}
    (hy : ∀ v ∈ y, v = c) (hlen : X.length = y.length) (hne : y ≠ [])
    (hfit : IsRidgeFit 1 X y w b) : (∀ i, w i = 0) ∧ b = c := by
  have hub := hfit (fun _ => 0) c
  rw [ridgeLoss_zero_of_const hy] at hub
  unfold ridgeLoss at hub
  have hSnn : 0 ≤ ((X.zip y).map (fun p => (p.2 - (dot w p.1 + b)) ^ 2)).sum := by
    apply List.sum_nonneg
    intro x hx
    obtain ⟨p, hp, rfl⟩ := List.mem_map.mp hx
    exact sq_nonneg _
  have hQnn : (0 : ℝ) ≤ ∑ i, w i ^ 2 := Finset.sum_nonneg (fun i _ => sq_nonneg _)
  have hS0 : ((X.zip y).map (fun p => (p.2 - (dot w p.1 + b)) ^ 2)).sum = 0 := by
    linarith
  have hQ0 : (∑ i, w i ^ 2) = 0 := by linarith
  have hw : ∀ i, w i = 0 := by
    intro i
    have hz := (Finset.sum_eq_zero_iff_of_nonneg
      (fun i _ => sq_nonneg (w i))).mp hQ0 i (Finset.mem_univ i)
    exact pow_eq_zero_iff (two_ne_zero) |>.mp hz
  refine ⟨hw, ?_⟩
  obtain ⟨v, ys, rfl⟩ := List.exists_cons_of_ne_nil hne
  have hXne : X ≠ [] := by
    intro h
    rw [h] at hlen
    simp at hlen
  obtain ⟨x0, xs, rfl⟩ := List.exists_cons_of_ne_nil hXne
  have hall := list_sum_zero_of_nonneg (l :=
      (((x0 :: xs).zip (v :: ys)).map (fun p => (p.2 - (dot w p.1 + b)) ^ 2)))
    (by
      intro x hx
      obtain ⟨p, hp, rfl⟩ := List.mem_map.mp hx
      exact sq_nonneg _) hS0
  have hm : ((v - (dot w x0 + b)) ^ 2) ∈
      ((x0 :: xs).zip (v :: ys)).map (fun p => (p.2 - (dot w p.1 + b)) ^ 2) :=
    List.mem_map.mpr ⟨(x0, v), List.mem_cons_self _ _, rfl⟩
  have hterm := hall _ hm
  have hvc : v = c := hy v (List.mem_cons_self _ _)
  have hd : dot w x0 = 0 := by simp [dot, hw]
  have hlin : v - (dot w x0 + b) = 0 := by
    exact pow_eq_zero_iff (two_ne_zero) |>.mp hterm
  rw [hd, hvc] at hlin
  linarith

/-- The coefficient of determination of exact predictions is 1. -/
theorem coeffD_one_of_exact {ytest ypred : List ℝ}
    (h : ∀ p ∈ ytest.zip ypred, (p : ℝ × ℝ).1 = p.2) :
    coeffOfDetermination ytest ypred = 1 := by
  unfold coeffOfDetermination
  have hz : ((ytest.zip ypred).map (fun p => (p.1 - p.2) ^ 2)).sum = 0 := by
    apply List.sum_eq_zero
    intro x hx
    obtain ⟨p, hp, rfl⟩ := List.mem_map.mp hx
    rw [h p hp, sub_self]
    exact zero_pow (by norm_num)
  rw [hz, zero_div, sub_zero]

/-- The training targets drawn from the concrete dataset are the constant 7,
whatever the held-out index set. -/
theorem yTrain_dM_const (T : Finset ℕ) :
    ∀ v ∈ (partsFor dM T).yTrain, v = (7 : ℝ) := by
  intro v hv
  have hv' : v ∈ partFrom (fun i => decide (i ∉ T)) 0 (targetsReal dM) := hv
  have hsub : v ∈ targetsReal dM := partFrom_subset _ 0 _ v hv'
  rw [targetsReal_dM] at hsub
  simpa using hsub

/-- The evaluation targets drawn from the concrete dataset are the constant
7, whatever the held-out index set. -/
theorem yTest_dM_const (T : Finset ℕ) :
    ∀ v ∈ (partsFor dM T).yTest, v = (7 : ℝ) := by
  intro v hv
  have hv' : v ∈ partFrom (fun i => decide (i ∈ T)) 0 (targetsReal dM) := hv
  have hsub : v ∈ targetsReal dM := partFrom_subset _ 0 _ v hv'
  rw [targetsReal_dM] at hsub
  simpa using hsub

/-- C5 counterexample: a row with all five features present but a missing
target is retained by the dropna of `train_model`, and its missing target
flows into the target series, so the claim that missing-target rows are
dropped fails. -/
theorem c5_missing_target_retained :
    rowMissingTarget ∈ dropnaFeatures dC5 ∧
    rowMissingTarget.temperature = none ∧
    none ∈ targetsOf dC5 := by
  decide

/-- C5 (amended): before fitting, `train_model` drops exactly the rows in
which any of the five feature columns is missing — a retained row has all
five features present — while the target column is not checked: the target
of a retained row is taken as stored and may be missing. -/
theorem c5_dropna_features_only :
    (∀ d r, r ∈ dropnaFeatures d ↔ r ∈ d ∧ featuresPresent r = true) ∧
    (∀ d, targetsOf d = (dropnaFeatures d).map (fun r => r.temperature)) :=
  ⟨fun _ _ => List.mem_filter, fun _ => rfl⟩

/-- C1 counterexample: on a concrete dataset the stored scaler mean of the
first feature is the full-retained-data mean 16/5, while the mean over the
training rows alone differs from it for every admissible held-out row of the
80/20 split (`nTest 5 = 1`), so the stored statistics are not computed from
the training rows only. -/
theorem c1_scaler_counterexample :
    nTest 5 = 1 ∧
    (fitScaler (featureMatrix dM)).mean 0 = 16 / 5 ∧
    qmean ((trainPart {0} (featureMatrix dM)).map (fun x => x 0)) ≠ 16 / 5 ∧
    qmean ((trainPart {1} (featureMatrix dM)).map (fun x => x 0)) ≠ 16 / 5 ∧
    qmean ((trainPart {2} (featureMatrix dM)).map (fun x => x 0)) ≠ 16 / 5 ∧
    qmean ((trainPart {3} (featureMatrix dM)).map (fun x => x 0)) ≠ 16 / 5 ∧
    qmean ((trainPart {4} (featureMatrix dM)).map (fun x => x 0)) ≠ 16 / 5 := by
  have e0 : (trainPart {0} (featureMatrix dM)).map (fun x => x 0) = [1, 2, 3, 10] := rfl
  have e1 : (trainPart {1} (featureMatrix dM)).map (fun x => x 0) = [0, 2, 3, 10] := rfl
  have e2 : (trainPart {2} (featureMatrix dM)).map (fun x => x 0) = [0, 1, 3, 10] := rfl
  have e3 : (trainPart {3} (featureMatrix dM)).map (fun x => x 0) = [0, 1, 2, 10] := rfl
  have e4 : (trainPart {4} (featureMatrix dM)).map (fun x => x 0) = [0, 1, 2, 3] := rfl
  have eall : (featureMatrix dM).map (fun x => x 0) = [0, 1, 2, 3, 10] := rfl
  have hmean : (fitScaler (featureMatrix dM)).mean 0 =
      qmean ((featureMatrix dM).map (fun x => x 0)) := rfl
  refine ⟨rfl, ?_, ?_, ?_, ?_, ?_, ?_⟩
  · rw [hmean, eall]
    norm_num [qmean]
  · rw [e0]
    norm_num [qmean]
  · rw [e1]
    norm_num [qmean]
  · rw [e2]
    norm_num [qmean]
  · rw [e3]
    norm_num [qmean]
  · rw [e4]
    norm_num [qmean]

/-- C1 (amended): the scaler stored by `train_model` is fit on the full
retained feature matrix before the train/evaluation split — its statistics
are the per-column mean and population variance over all retained rows, not
over the training rows only — and inference applies exactly these stored
statistics: the predict handler computes `Σ w i * (x i - mean i) / scale i + b`. -/
theorem c1_scaler_full_data :
    (∀ data T, (partsFor data T).scaler = fitScaler (featureMatrix data)) ∧
    (∀ X i, (fitScaler X).mean i = qmean (X.map (fun x => x i))) ∧
    (∀ X i, (fitScaler X).var i =
      qmean (X.map (fun x => (x i - qmean (X.map (fun x' => x' i))) ^ 2))) ∧
    (∀ s w b x, predictTemp s w b x =
      (∑ i, w i * (((x i : ℚ) : ℝ) - ((s.mean i : ℚ) : ℝ)) / scaleOf (s.var i)) + b) := by
  refine ⟨fun data T => rfl, fun X i => rfl, fun X i => rfl, fun s w b x => ?_⟩
  unfold predictTemp dot transformRow
  congr 1
  refine Finset.sum_congr rfl (fun i _ => ?_)
  rw [mul_div_assoc]

/-- C9: training is deterministic: with the fixed `random_state = 42` the
split indices do not depend on the external entropy, hence the prepared
training/evaluation data, the characterization of the fitted weights and
bias, and the computed metrics are identical across two runs on identical
input data. -/
theorem c9_fit_deterministic :
    (∀ e₁ e₂ n, train_test_split (some 42) e₁ n = train_test_split (some 42) e₂ n) ∧
    (∀ data e₁ e₂, prepare data e₁ = prepare data e₂) ∧
    (∀ data e₁ e₂ w b,
      IsRidgeFit 1 (prepare data e₁).xTrain (prepare data e₁).yTrain w b ↔
        IsRidgeFit 1 (prepare data e₂).xTrain (prepare data e₂).yTrain w b) ∧
    (∀ data e₁ e₂ w b,
      metricsOf (prepare data e₁).yTest (predsOn (prepare data e₁).xTest w b) =
        metricsOf (prepare data e₂).yTest (predsOn (prepare data e₂).xTest w b)) :=
  ⟨fun _ _ _ => rfl, fun _ _ _ => rfl, fun _ _ _ _ _ => Iff.rfl, fun _ _ _ _ _ => rfl⟩

/-- C2: the reported coefficient of determination is the hardcoded constant
0.7134 whatever the data, while on a concrete constant-target dataset the
coefficient of determination of the model's predictions against the actual
targets on the evaluation partition is 1 — for every admissible held-out
index choice of the 80/20 split and every ridge minimizer — so the reported
value is not the R² of the evaluation partition. -/
theorem c2_r2_hardcoded :
    (∀ yt yp, (metricsOf yt yp).r2 = 0.7134) ∧
    (0.7134 : ℝ) ≠ 1 ∧
    (∀ T : Finset ℕ, T ⊆ Finset.range 5 → T.card = 1 →
      ∀ w b, IsRidgeFit 1 (partsFor dM T).xTrain (partsFor dM T).yTrain w b →
        coeffOfDetermination (partsFor dM T).yTest
          (predsOn (partsFor dM T).xTest w b) = 1) := by
  refine ⟨fun yt yp => rfl, by norm_num, ?_⟩
  intro T hsub hcard w b hfit
  have hlen : (partsFor dM T).xTrain.length = (partsFor dM T).yTrain.length := by
    have h5 : ((featureMatrix dM).map
        (transformRow (fitScaler (featureMatrix dM)))).length =
        (targetsReal dM).length := by
      rw [List.length_map, targetsReal_dM]
      rfl
    show (partFrom (fun i => decide (i ∉ T)) 0
        ((featureMatrix dM).map (transformRow (fitScaler (featureMatrix dM))))).length =
      (partFrom (fun i => decide (i ∉ T)) 0 (targetsReal dM)).length
    exact partFrom_length_congr _ 0 _ _ h5
  have hne : (partsFor dM T).yTrain ≠ [] := by
    obtain ⟨j, rfl⟩ := Finset.card_eq_one.mp hcard
    have hj : j < 5 := Finset.mem_range.mp (hsub (Finset.mem_singleton_self j))
    intro hnil
    have hnil' : trainPart {j} (targetsReal dM) = [] := hnil
    have h5 : (targetsReal dM).length = ([0, 1, 2, 3, 4] : List ℕ).length := by
      rw [targetsReal_dM]
      rfl
    have hlc : (trainPart {j} (targetsReal dM)).length =
        (trainPart {j} ([0, 1, 2, 3, 4] : List ℕ)).length :=
      partFrom_length_congr _ 0 _ _ h5
    have hpos : 0 < (trainPart {j} ([0, 1, 2, 3, 4] : List ℕ)).length := by
      interval_cases j <;> decide
    rw [hnil'] at hlc
    simp at hlc
    omega
  have hwb := ridge_fit_const (yTrain_dM_const T) hlen hne hfit
  apply coeffD_one_of_exact
  intro p hp
  obtain ⟨p1, p2⟩ := p
  have h1 := (List.of_mem_zip hp).1
  have h2 := (List.of_mem_zip hp).2
  have hp1 : p1 = 7 := yTest_dM_const T p1 h1
  have hp2 : p2 = 7 := by
    unfold predsOn at h2
    obtain ⟨x, hx, rfl⟩ := List.mem_map.mp h2
    have hd : dot w x = 0 := by simp [dot, hwb.1]
    rw [hd, hwb.2, zero_add]
  rw [hp1, hp2]

/-- C2 witness: the theorem applied at the held-out index set {4} with the
explicit minimizer (zero weights, bias 7). -/
theorem c2_witness :
    (metricsOf [] []).r2 = 0.7134 ∧
    coeffOfDetermination (partsFor dM ({4} : Finset ℕ)).yTest
      (predsOn (partsFor dM ({4} : Finset ℕ)).xTest (fun _ => 0) 7) = 1 := by
  refine ⟨c2_r2_hardcoded.1 [] [],
    c2_r2_hardcoded.2.2 {4} (by decide) (by decide) (fun _ => 0) 7 ?_⟩
  intro w' b'
  rw [ridgeLoss_zero_of_const (yTrain_dM_const {4})]
  exact ridgeLoss_nonneg _ _ _ _
